import Mathlib

/-!
Verification development for the board3 websocket whiteboard server.

The definitions below are a shallow embedding of the Rust sources:
`src/ser.rs` and `src/de.rs` (the binary codec), `src/messages.rs` (the
message family), `src/auth.rs` (the auth oracle), `src/client.rs` (the
per-connection protocol state machine) and `src/server.rs` (the board
registry and fan-out engine).  Machine integers are modelled as `Nat`
with explicit masking where the code masks; byte strings are `List Nat`;
fallible operations return `Except`.  A Rust panic (out-of-bounds slice
index, `unwrap` of `None`/`Err`) is modelled as a distinguished error
value `crash`, kept separate from the ordinary decode error that the
code returns through its `Result` type.
-/

/-- Outcome of the deserializer (`src/de.rs`): `err` models an
`Err(Error::Message(..))` return value, `crash` models a Rust panic
(slice indexing past the end of the input). -/
inductive DErr where
  | err
  | crash
deriving DecidableEq, Repr

/-- A decode step returns the value together with the unread remainder of
the input, mirroring the `pos` cursor of `Deserializer`. -/
abbrev DRes (α : Type) := Except DErr (α × List Nat)

/-- `Deserializer::read_u8`: `self.input[self.pos]` — indexing past the
end of the input is a panic, not an error (`src/de.rs` lines 24–28). -/
def rdU8 : List Nat → DRes Nat
  | [] => .error .crash
  | b :: r => .ok (b, r)

/-- `Deserializer::read_u16` (little endian, `(b << 8) | a`). -/
def rdU16 (l : List Nat) : DRes Nat :=
  match rdU8 l with
  | .error e => .error e
  | .ok (a, l1) =>
    match rdU8 l1 with
    | .error e => .error e
    | .ok (b, l2) => .ok ((b <<< 8) ||| a, l2)

/-- `Deserializer::read_u32` (`((d << 24) | (c << 16) | b << 8) | a`). -/
def rdU32 (l : List Nat) : DRes Nat :=
  match rdU8 l with
  | .error e => .error e
  | .ok (a, l1) =>
    match rdU8 l1 with
    | .error e => .error e
    | .ok (b, l2) =>
      match rdU8 l2 with
      | .error e => .error e
      | .ok (c, l3) =>
        match rdU8 l3 with
        | .error e => .error e
        | .ok (d, l4) => .ok ((d <<< 24) ||| (c <<< 16) ||| (b <<< 8) ||| a, l4)

/-- `Deserializer::read_u64`
(`((h << 56) | (g << 48) | (f << 40) | (e << 32) | (d << 24) | (c << 16) | b << 8) | a`). -/
def rdU64 (l : List Nat) : DRes Nat :=
  match rdU8 l with
  | .error e => .error e
  | .ok (a, l1) =>
    match rdU8 l1 with
    | .error e => .error e
    | .ok (b, l2) =>
      match rdU8 l2 with
      | .error e => .error e
      | .ok (c, l3) =>
        match rdU8 l3 with
        | .error e => .error e
        | .ok (d, l4) =>
          match rdU8 l4 with
          | .error e => .error e
          | .ok (e0, l5) =>
            match rdU8 l5 with
            | .error e => .error e
            | .ok (f, l6) =>
              match rdU8 l6 with
              | .error e => .error e
              | .ok (g, l7) =>
                match rdU8 l7 with
                | .error e => .error e
                | .ok (h, l8) =>
                  .ok ((h <<< 56) ||| (g <<< 48) ||| (f <<< 40) ||| (e0 <<< 32) |||
                    (d <<< 24) ||| (c <<< 16) ||| (b <<< 8) ||| a, l8)

/-- `Deserializer::read_bytes`: `&self.input[self.pos..self.pos+length]`
panics when fewer than `length` bytes remain (`src/de.rs` lines 59–63). -/
def rdBytes (n : Nat) (l : List Nat) : DRes (List Nat) :=
  if n ≤ l.length then .ok (l.take n, l.drop n) else .error .crash

/-- One continuation byte of a UTF-8 sequence (`0x80..=0xBF`). -/
def utf8Cont (b : Nat) : Bool := 0x80 ≤ b && b ≤ 0xBF

/-- The UTF-8 validity check performed by `std::str::from_utf8` on the
bytes of a string (RFC 3629: well-formed byte sequences only, surrogate
code points and over-long encodings rejected). -/
def utf8Valid : List Nat → Bool
  | [] => true
  | b :: r =>
    if b ≤ 0x7F then utf8Valid r
    else if 0xC2 ≤ b && b ≤ 0xDF then
      match r with
      | c1 :: r1 => utf8Cont c1 && utf8Valid r1
      | [] => false
    else if b = 0xE0 then
      match r with
      | c1 :: c2 :: r2 => (0xA0 ≤ c1 && c1 ≤ 0xBF) && utf8Cont c2 && utf8Valid r2
      | _ => false
    else if (0xE1 ≤ b && b ≤ 0xEC) || b = 0xEE || b = 0xEF then
      match r with
      | c1 :: c2 :: r2 => utf8Cont c1 && utf8Cont c2 && utf8Valid r2
      | _ => false
    else if b = 0xED then
      match r with
      | c1 :: c2 :: r2 => (0x80 ≤ c1 && c1 ≤ 0x9F) && utf8Cont c2 && utf8Valid r2
      | _ => false
    else if b = 0xF0 then
      match r with
      | c1 :: c2 :: c3 :: r3 =>
        (0x90 ≤ c1 && c1 ≤ 0xBF) && utf8Cont c2 && utf8Cont c3 && utf8Valid r3
      | _ => false
    else if 0xF1 ≤ b && b ≤ 0xF3 then
      match r with
      | c1 :: c2 :: c3 :: r3 => utf8Cont c1 && utf8Cont c2 && utf8Cont c3 && utf8Valid r3
      | _ => false
    else if b = 0xF4 then
      match r with
      | c1 :: c2 :: c3 :: r3 =>
        (0x80 ≤ c1 && c1 ≤ 0x8F) && utf8Cont c2 && utf8Cont c3 && utf8Valid r3
      | _ => false
    else false

/-- `Deserializer::deserialize_str`: u16 length, that many raw bytes,
then the UTF-8 validity check; invalid UTF-8 is an ordinary error. -/
def rdStr (l : List Nat) : DRes (List Nat) :=
  match rdU16 l with
  | .error e => .error e
  | .ok (len, l1) =>
    match rdBytes len l1 with
    | .error e => .error e
    | .ok (s, l2) => if utf8Valid s then .ok (s, l2) else .error .err

/-- `Deserializer::deserialize_bytes`: u16 length then raw bytes. -/
def rdBytesField (l : List Nat) : DRes (List Nat) :=
  match rdU16 l with
  | .error e => .error e
  | .ok (len, l1) =>
    match rdBytes len l1 with
    | .error e => .error e
    | .ok (s, l2) => .ok (s, l2)

/-- Read `n` consecutive u32 values (the `[u32; 8]` palette is
deserialized as a tuple of 8 u32s with no length prefix). -/
def rdU32s : Nat → List Nat → DRes (List Nat)
  | 0, l => .ok ([], l)
  | n + 1, l =>
    match rdU32 l with
    | .error e => .error e
    | .ok (x, l1) =>
      match rdU32s n l1 with
      | .error e => .error e
      | .ok (xs, l2) => .ok (x :: xs, l2)

/-- The message family of `src/messages.rs`.  Strings are UTF-8 byte
lists, integers are `Nat` bounded by their Rust types.  The variant
order matches the declaration order of `enum Message`, which fixes the
serde variant indices 0–15. -/
inductive Message where
  | auth (jwt_token : List Nat)
  | join (name : List Nat)
  | create (template_id : Nat) (name : List Nat)
  | boardConfiguration (palette : List Nat) (background : Nat)
      (board_flags : Nat) (history_size : Nat)
  | step (step_id : Nat)
  | draw (position : Nat) (color : Nat) (flags : Nat)
  | cursorMove (position : Nat) (user_id : Nat)
  | fill (start : Nat) (stop : Nat) (color : Nat)
  | image (start : Nat) (stop : Nat) (url : List Nat)
  | text (center : Nat) (body : List Nat) (text_color : Nat)
  | undo (last_actual_step_id : Nat)
  | ping (timestamp : Nat)
  | userJoin (user_id : Nat) (username : List Nat)
  | userLeave (user_id : Nat)
  | serverMessage (message : List Nat)
  | history (data : List Nat)
deriving DecidableEq, Repr

/-- `decode` = `de::from_bytes::<Message>`: variant byte, then the
variant's fields in declaration order.  A variant byte outside 0–15 is
rejected by the serde-derived identifier visitor with an ordinary
error. -/
def decodeMessage (l : List Nat) : DRes Message :=
  match rdU8 l with
  | .error e => .error e
  | .ok (tag, l1) =>
    match tag with
    | 0 =>
      match rdStr l1 with
      | .error e => .error e
      | .ok (t, l2) => .ok (.auth t, l2)
    | 1 =>
      match rdStr l1 with
      | .error e => .error e
      | .ok (n, l2) => .ok (.join n, l2)
    | 2 =>
      match rdU64 l1 with
      | .error e => .error e
      | .ok (tid, l2) =>
        match rdStr l2 with
        | .error e => .error e
        | .ok (n, l3) => .ok (.create tid n, l3)
    | 3 =>
      match rdU32s 8 l1 with
      | .error e => .error e
      | .ok (pal, l2) =>
        match rdU8 l2 with
        | .error e => .error e
        | .ok (bg, l3) =>
          match rdU8 l3 with
          | .error e => .error e
          | .ok (fl, l4) =>
            match rdU16 l4 with
            | .error e => .error e
            | .ok (hs, l5) => .ok (.boardConfiguration pal bg fl hs, l5)
    | 4 =>
      match rdU32 l1 with
      | .error e => .error e
      | .ok (sid, l2) => .ok (.step sid, l2)
    | 5 =>
      match rdU32 l1 with
      | .error e => .error e
      | .ok (pos, l2) =>
        match rdU8 l2 with
        | .error e => .error e
        | .ok (col, l3) =>
          match rdU8 l3 with
          | .error e => .error e
          | .ok (fl, l4) => .ok (.draw pos col fl, l4)
    | 6 =>
      match rdU32 l1 with
      | .error e => .error e
      | .ok (pos, l2) =>
        match rdU8 l2 with
        | .error e => .error e
        | .ok (uid, l3) => .ok (.cursorMove pos uid, l3)
    | 7 =>
      match rdU32 l1 with
      | .error e => .error e
      | .ok (s, l2) =>
        match rdU32 l2 with
        | .error e => .error e
        | .ok (t, l3) =>
          match rdU8 l3 with
          | .error e => .error e
          | .ok (col, l4) => .ok (.fill s t col, l4)
    | 8 =>
      match rdU32 l1 with
      | .error e => .error e
      | .ok (s, l2) =>
        match rdU32 l2 with
        | .error e => .error e
        | .ok (t, l3) =>
          match rdStr l3 with
          | .error e => .error e
          | .ok (u, l4) => .ok (.image s t u, l4)
    | 9 =>
      match rdU32 l1 with
      | .error e => .error e
      | .ok (cen, l2) =>
        match rdStr l2 with
        | .error e => .error e
        | .ok (tx, l3) =>
          match rdU8 l3 with
          | .error e => .error e
          | .ok (tc, l4) => .ok (.text cen tx tc, l4)
    | 10 =>
      match rdU32 l1 with
      | .error e => .error e
      | .ok (sid, l2) => .ok (.undo sid, l2)
    | 11 =>
      match rdU64 l1 with
      | .error e => .error e
      | .ok (ts, l2) => .ok (.ping ts, l2)
    | 12 =>
      match rdU8 l1 with
      | .error e => .error e
      | .ok (uid, l2) =>
        match rdStr l2 with
        | .error e => .error e
        | .ok (un, l3) => .ok (.userJoin uid un, l3)
    | 13 =>
      match rdU8 l1 with
      | .error e => .error e
      | .ok (uid, l2) => .ok (.userLeave uid, l2)
    | 14 =>
      match rdStr l1 with
      | .error e => .error e
      | .ok (msg, l2) => .ok (.serverMessage msg, l2)
    | 15 =>
      match rdBytesField l1 with
      | .error e => .error e
      | .ok (d, l2) => .ok (.history d, l2)
    | _ => .error .err

/-- `Serializer::serialize_u8` pushes the byte as is. -/
def wrU8 (v : Nat) : List Nat := [v]

/-- `Serializer::serialize_u16`: little endian, `& 0xff` masking. -/
def wrU16 (v : Nat) : List Nat := [v % 256, (v >>> 8) % 256]

/-- `Serializer::serialize_u32`. -/
def wrU32 (v : Nat) : List Nat :=
  [v % 256, (v >>> 8) % 256, (v >>> 16) % 256, (v >>> 24) % 256]

/-- `Serializer::serialize_u64`. -/
def wrU64 (v : Nat) : List Nat :=
  [v % 256, (v >>> 8) % 256, (v >>> 16) % 256, (v >>> 24) % 256,
   (v >>> 32) % 256, (v >>> 40) % 256, (v >>> 48) % 256, (v >>> 56) % 256]

/-- `Serializer::serialize_str`: a string of 65536 bytes or more fails to
encode; otherwise u16 length followed by the bytes. -/
def wrStr (s : List Nat) : Except Unit (List Nat) :=
  if 65536 ≤ s.length then .error () else .ok (wrU16 s.length ++ s)

/-- `Serializer::serialize_bytes`: same length limit and layout. -/
def wrBytes (s : List Nat) : Except Unit (List Nat) :=
  if 65536 ≤ s.length then .error () else .ok (wrU16 s.length ++ s)

/-- `encode` = `ser::to_bytes(&Message::..)`: variant byte followed by
the fields in declaration order; the only failures are over-long
strings/byte blobs. -/
def encodeMessage : Message → Except Unit (List Nat)
  | .auth t =>
    match wrStr t with
    | .error e => .error e
    | .ok s => .ok (0 :: s)
  | .join n =>
    match wrStr n with
    | .error e => .error e
    | .ok s => .ok (1 :: s)
  | .create tid n =>
    match wrStr n with
    | .error e => .error e
    | .ok s => .ok (2 :: (wrU64 tid ++ s))
  | .boardConfiguration pal bg fl hs =>
    .ok (3 :: ((pal.map wrU32).flatten ++ wrU8 bg ++ wrU8 fl ++ wrU16 hs))
  | .step sid => .ok (4 :: wrU32 sid)
  | .draw pos col fl => .ok (5 :: (wrU32 pos ++ wrU8 col ++ wrU8 fl))
  | .cursorMove pos uid => .ok (6 :: (wrU32 pos ++ wrU8 uid))
  | .fill s t col => .ok (7 :: (wrU32 s ++ wrU32 t ++ wrU8 col))
  | .image s t url =>
    match wrStr url with
    | .error e => .error e
    | .ok u => .ok (8 :: (wrU32 s ++ wrU32 t ++ u))
  | .text cen tx tc =>
    match wrStr tx with
    | .error e => .error e
    | .ok u => .ok (9 :: (wrU32 cen ++ u ++ wrU8 tc))
  | .undo sid => .ok (10 :: wrU32 sid)
  | .ping ts => .ok (11 :: wrU64 ts)
  | .userJoin uid un =>
    match wrStr un with
    | .error e => .error e
    | .ok u => .ok (12 :: (wrU8 uid ++ u))
  | .userLeave uid => .ok (13 :: wrU8 uid)
  | .serverMessage msg =>
    match wrStr msg with
    | .error e => .error e
    | .ok u => .ok (14 :: u)
  | .history d =>
    match wrBytes d with
    | .error e => .error e
    | .ok u => .ok (15 :: u)

/-- The typing constraints the Rust types place on a `Message` value:
integer fields bounded by their width, string fields valid UTF-8 (a
`&str` is valid UTF-8 by construction), the palette exactly 8 u32
values, byte blobs made of bytes. -/
def wellTypedB : Message → Bool
  | .auth t => utf8Valid t
  | .join n => utf8Valid n
  | .create tid n => tid < 2 ^ 64 && utf8Valid n
  | .boardConfiguration pal bg fl hs =>
    pal.length = 8 && pal.all (· < 2 ^ 32) && bg < 256 && fl < 256 && hs < 2 ^ 16
  | .step sid => sid < 2 ^ 32
  | .draw pos col fl => pos < 2 ^ 32 && col < 256 && fl < 256
  | .cursorMove pos uid => pos < 2 ^ 32 && uid < 256
  | .fill s t col => s < 2 ^ 32 && t < 2 ^ 32 && col < 256
  | .image s t url => s < 2 ^ 32 && t < 2 ^ 32 && utf8Valid url
  | .text cen tx tc => cen < 2 ^ 32 && utf8Valid tx && tc < 256
  | .undo sid => sid < 2 ^ 32
  | .ping ts => ts < 2 ^ 64
  | .userJoin uid un => uid < 256 && utf8Valid un
  | .userLeave uid => uid < 256
  | .serverMessage msg => utf8Valid msg
  | .history d => d.all (· < 256)

/-- String/byte fields short enough to encode (at most 65535 bytes). -/
def msgLenOk : Message → Bool
  | .auth t => t.length ≤ 65535
  | .join n => n.length ≤ 65535
  | .create _ n => n.length ≤ 65535
  | .image _ _ url => url.length ≤ 65535
  | .text _ tx _ => tx.length ≤ 65535
  | .userJoin _ un => un.length ≤ 65535
  | .serverMessage msg => msg.length ≤ 65535
  | .history d => d.length ≤ 65535
  | _ => true

/-- `server::User` — the authenticated user (username bytes). -/
structure User where
  username : List Nat
deriving DecidableEq, Repr

/-- `client::BoardContext` — per-connection board membership data. -/
structure BoardContext where
  board_name : List Nat
  board_client_id : Nat
deriving DecidableEq, Repr

/-- `client::Client` — one connection.  `uid` identifies the underlying
`ws::Sender` channel, `sendOk` tells for each frame whether sending it
on that channel succeeds, and `received` is the log of frames
successfully delivered on the channel, in order. -/
structure SClient where
  uid : Nat
  authenticated_user : Option User
  board_context : Option BoardContext
  sendOk : List Nat → Bool
  received : List (List Nat)

/-- `auth::auth` — the auth oracle of `src/auth.rs`: it always succeeds
and uses the token itself as the username. -/
def auth (jwt_token : List Nat) : Option User := some ⟨jwt_token⟩

/-- The connection phase of §3 of the spec, derived exactly the way
`handle_binary_msg` branches on it: the `authenticated_user` check comes
first, then the `board_context` check. -/
inductive Phase where
  | unauth
  | authed
  | inBoard
deriving DecidableEq, Repr

/-- Phase of a connection: `(user.is_some, board.is_some)`. -/
def SClient.phase (c : SClient) : Phase :=
  if c.authenticated_user.isNone then .unauth
  else if c.board_context.isNone then .authed
  else .inBoard

/-- The observable outcome of dispatching one decoded message: either
the connection is closed with a reason string, or the specified side
effect happens. -/
inductive Effect where
  | ok
  | close (reason : String)
  | createAndJoin (name : List Nat)
  | joinExisting (name : List Nat)
  | forwardToBoard
deriving DecidableEq, Repr

/-- `Client::ensure_auth` (`src/client.rs` lines 65–77), parameterised by
the auth oracle the way §1 of the spec treats it (an external pure
function); the code instantiates it with `auth::auth`. -/
def ensure_authWith (oracle : List Nat → Option User) (c : SClient) :
    Message → SClient × Effect
  | .auth t =>
    match oracle t with
    | none => (c, .close "invalid auth")
    | some u => ({c with authenticated_user := some u}, .ok)
  | _ => (c, .close "auth expected")

/-- `Client::ensure_in_board` together with `handle_board_create` /
`handle_board_join` (`src/client.rs` lines 79–117), with the board
registry abstracted to the `boardExists` lookup.  Note that only the
`Create` path writes `board_context`; the `Join` path leaves it
untouched before calling `add_client`. -/
def ensure_in_board (c : SClient) (boardExists : List Nat → Bool) :
    Message → SClient × Effect
  | .join t => if boardExists t then (c, .joinExisting t)
               else (c, .close "board not found")
  | .create _ n => if boardExists n then (c, .close "board already exists")
                   else ({c with board_context := some ⟨n, 0⟩}, .createAndJoin n)
  | _ => (c, .close "auth expected")

/-- `Client::handle_in_board_msg` (`src/client.rs` lines 119–134). -/
def handle_in_board_msg (c : SClient) : Message → SClient × Effect
  | .auth _ => (c, .close "already authenticated")
  | .join _ => (c, .close "already joined a board")
  | .boardConfiguration _ _ _ _ => (c, .close "board configuration invalid atm")
  | .history _ => (c, .close "history invalid atm")
  | .serverMessage _ => (c, .close "server message invalid atm")
  | .userJoin _ _ => (c, .close "user join invalid atm")
  | .userLeave _ => (c, .close "user leave invalid atm")
  | .create _ _ => (c, .close "already joined a board")
  | .ping _ => (c, .ok)
  | .step _ => (c, .ok)
  | .undo _ => (c, .ok)
  | .draw _ _ _ => (c, .forwardToBoard)
  | .cursorMove _ _ => (c, .forwardToBoard)
  | .fill _ _ _ => (c, .forwardToBoard)
  | .image _ _ _ => (c, .forwardToBoard)
  | .text _ _ _ => (c, .forwardToBoard)

/-- `Client::handle_binary_msg` after a successful decode
(`src/client.rs` lines 45–63): auth gate, then board gate, then the
in-board dispatch. -/
def handleMsgWith (oracle : List Nat → Option User) (c : SClient)
    (m : Message) (boardExists : List Nat → Bool) : SClient × Effect :=
  if c.authenticated_user.isNone then ensure_authWith oracle c m
  else if c.board_context.isNone then ensure_in_board c boardExists m
  else handle_in_board_msg c m

/-- The dispatch as compiled: the oracle is `auth::auth`. -/
def handleMsg (c : SClient) (m : Message) (boardExists : List Nat → Bool) :
    SClient × Effect :=
  handleMsgWith auth c m boardExists

/-- Modelled from the spec: the admissibility table of §4.2, written
down phase by phase following the spec's wording, for comparison with
the dispatch translated from `src/client.rs`. -/
def specEffect (oracle : List Nat → Option User) (p : Phase) (m : Message)
    (boardExists : List Nat → Bool) : Effect :=
  match p with
  | .unauth =>
    match m with
    | .auth t => match oracle t with
                 | some _ => .ok
                 | none => .close "invalid auth"
    | _ => .close "auth expected"
  | .authed =>
    match m with
    | .create _ n => if boardExists n then .close "board already exists"
                     else .createAndJoin n
    | .join t => if boardExists t then .joinExisting t
                 else .close "board not found"
    | _ => .close "auth expected"
  | .inBoard =>
    match m with
    | .draw _ _ _ => .forwardToBoard
    | .cursorMove _ _ => .forwardToBoard
    | .fill _ _ _ => .forwardToBoard
    | .image _ _ _ => .forwardToBoard
    | .text _ _ _ => .forwardToBoard
    | .ping _ => .ok
    | .step _ => .ok
    | .undo _ => .ok
    | .auth _ => .close "already authenticated"
    | .join _ => .close "already joined a board"
    | .create _ _ => .close "already joined a board"
    | .boardConfiguration _ _ _ _ => .close "board configuration invalid atm"
    | .history _ => .close "history invalid atm"
    | .serverMessage _ => .close "server message invalid atm"
    | .userJoin _ _ => .close "user join invalid atm"
    | .userLeave _ => .close "user leave invalid atm"

/-- The documented phase transitions: `Auth` while Unauthenticated and
`Join`/`Create` while Authenticated are the only (phase, variant) pairs
allowed to change the phase. -/
def phaseException : Phase → Message → Bool
  | .unauth, .auth _ => true
  | .authed, .join _ => true
  | .authed, .create _ _ => true
  | _, _ => false

/-- `server::Board`. -/
structure Board where
  clients : List SClient
  last_client_id : Nat
  history : List Nat
  history_size : Nat
  palette : List Nat
  background_color : Nat

/-- The default palette of `src/messages.rs` (`color(r,g,b)` packs
`b << 16 | g << 8 | r`). -/
def PALETTE_DEFAULT : List Nat :=
  [0, 255, 65280, 16711680, 65535, 16776960, 16711935, 16777215]

/-- `Board::new`. -/
def Board.new : Board :=
  { clients := [], last_client_id := 0, history := [],
    history_size := 65535, palette := PALETTE_DEFAULT, background_color := 0 }

/-- `Board::board_flags` always returns `HISTORY_ENABLED` (bit 0b01);
`HISTORY_TRIMMED` (bit 0b10) is never set (`src/server.rs` lines 62–64). -/
def Board.board_flags (_ : Board) : Nat := 1

/-- `Board::add_to_history` appends the bytes verbatim, with no bound
check (`src/server.rs` lines 85–87). -/
def Board.add_to_history (b : Board) (message : List Nat) : Board :=
  { b with history := b.history ++ message }

/-- Failure modes of the fan-out engine: `fuel` marks exhaustion of the
recursion budget in the model (shown unreachable below), `crash` a Rust
panic (an `unwrap` of a `None` board context or of a failed encode). -/
inductive BErr where
  | fuel
  | crash
deriving DecidableEq, Repr

/-- One pass of `Board::broadcast`'s loop over the roster snapshot
(`src/server.rs` lines 69–78): survivors get the frame appended to
their channel log and are retained in order; for each client whose send
fails a `UserLeave` frame is built from `board_context.unwrap()` — a
panic when the context was never assigned — and queued, in roster
order. -/
def passSend (msg : List Nat) : List SClient →
    Except BErr (List SClient × List (List Nat))
  | [] => .ok ([], [])
  | c :: rest =>
    if c.sendOk msg then
      match passSend msg rest with
      | .error e => .error e
      | .ok (s, errs) => .ok ({c with received := c.received ++ [msg]} :: s, errs)
    else
      match c.board_context with
      | none => .error .crash
      | some ctx =>
        match encodeMessage (.userLeave ctx.board_client_id) with
        | .error _ => .error .crash
        | .ok leaveMsg =>
          match passSend msg rest with
          | .error e => .error e
          | .ok (s, errs) => .ok (s, leaveMsg :: errs)

/-- `Board::broadcast` (`src/server.rs` lines 66–83): one pass over the
roster, then a recursive broadcast of every synthesized `UserLeave`, in
order.  The recursion of the source carries no fuel; the `fuel`
parameter only bounds the modelled recursion depth and is proved
sufficient at `roster size + 1` below. -/
def broadcastF : Nat → List Nat → Board → Except BErr Board
  | 0, _, _ => .error .fuel
  | n + 1, msg, b =>
    match passSend msg b.clients with
    | .error e => .error e
    | .ok (survivors, errs) =>
      errs.foldlM (fun bb e => broadcastF n e bb) {b with clients := survivors}

/-- `Board::broadcast` with the fuel the termination theorem justifies. -/
def Board.broadcast (b : Board) (msg : List Nat) : Except BErr Board :=
  broadcastF (b.clients.length + 1) msg b

/-- `history.chunks(65535)` with an explicit structural budget (the
budget `fuel ≥ length` makes the recursion structural; `chunks65535`
instantiates it). -/
def chunksGo : Nat → List Nat → List (List Nat)
  | 0, _ => []
  | _, [] => []
  | f + 1, a :: t => ((a :: t).take 65535) :: chunksGo f ((a :: t).drop 65535)

/-- `history.chunks((1 << 16) - 1)`: successive chunks of at most 65535
bytes (`src/server.rs` line 119). -/
def chunks65535 (l : List Nat) : List (List Nat) := chunksGo l.length l

/-- `to_bytes(&BoardConfiguration { .. })` — the configuration frame as
the code sends it: the bare struct serialization (palette, background,
board_flags, history_size), `src/server.rs` lines 109–114. -/
def confBytes (b : Board) : List Nat :=
  (b.palette.map wrU32).flatten ++ wrU8 b.background_color ++
    wrU8 b.board_flags ++ wrU16 b.history_size

/-- `to_bytes(&History { data: x })` — one history frame: the bare
struct serialization of `History`, a length-prefixed byte blob. -/
def historyFrame (x : List Nat) : Except Unit (List Nat) := wrBytes x

/-- The history replay loop of `Board::add_client` (`src/server.rs`
lines 118–124): each chunk is framed and sent to the joining
connection; an encode failure is an `unwrap` panic, a send failure
returns the `cannot send history` error. -/
def sendHistory : List (List Nat) → SClient → Except BErr (Option SClient)
  | [], c => .ok (some c)
  | x :: xs, c =>
    match historyFrame x with
    | .error _ => .error .crash
    | .ok frame =>
      if c.sendOk frame then
        sendHistory xs {c with received := c.received ++ [frame]}
      else .ok none

/-- `Board::add_client` (`src/server.rs` lines 89–127): requires an
authenticated user; writes the next client id into the connection's
board context *if it has one* (`board_context.as_mut().map(..)` is a
no-op on `None`); broadcasts `UserJoin` to the previous roster; pushes
a clone of the connection; sends the configuration frame and the
chunked history on the joiner's channel.  `.error .sendFail` models the
`Err` return on a failed send, `.error .crash` a panic inside the call. -/
inductive AddErr where
  | notAuthenticated
  | sendFail
  | crash
deriving DecidableEq, Repr

def add_client (b : Board) (c : SClient) : Except AddErr (Board × SClient) :=
  match c.authenticated_user with
  | none => .error .notAuthenticated
  | some user =>
    let c1 : SClient :=
      {c with board_context :=
        c.board_context.map (fun x => {x with board_client_id := b.last_client_id})}
    match encodeMessage (.userJoin b.last_client_id user.username) with
    | .error _ => .error .crash
    | .ok joinMsg =>
      let b1 : Board := {b with last_client_id := (b.last_client_id + 1) % 256}
      match b1.broadcast joinMsg with
      | .error _ => .error .crash
      | .ok b2 =>
        let b3 : Board := {b2 with clients := b2.clients ++ [c1]}
        let conf := confBytes b3
        if c1.sendOk conf then
          match sendHistory (chunks65535 b3.history) {c1 with received := c1.received ++ [conf]} with
          | .error _ => .error .crash
          | .ok none => .error .sendFail
          | .ok (some c2) => .ok (b3, c2)
        else .error .sendFail

/-- `server::Server` — the registry, a name-keyed map of boards,
modelled as an association list. -/
def ServerReg := List (List Nat × Board)

/-- `Server::has_board`. -/
def hasBoard (s : ServerReg) (n : List Nat) : Bool :=
  (s.find? (fun p => p.1 == n)).isSome

/-- `Server::find`. -/
def findBoard (s : ServerReg) (n : List Nat) : Option Board :=
  (s.find? (fun p => p.1 == n)).map (·.2)

/-- Store back a board under its name (the in-place mutation through the
`&mut Board` reference). -/
def putBoard : ServerReg → List Nat → Board → ServerReg
  | [], n, b => [(n, b)]
  | p :: rest, n, b => if p.1 == n then (n, b) :: rest else p :: putBoard rest n b

/-- `Client::handle_board_create` (`src/client.rs` lines 87–103): check
for a name conflict, set the connection's `board_context`, create the
board in the registry (`entry().or_insert`), and call `add_client`.
Returns the registry, the connection, and the close reason if any. -/
def serverCreate (s : ServerReg) (c : SClient) (name : List Nat) :
    ServerReg × SClient × Option String :=
  if hasBoard s name then (s, c, some "board already exists")
  else
    let c1 : SClient := {c with board_context := some ⟨name, 0⟩}
    let b := (findBoard s name).getD Board.new
    match add_client b c1 with
    | .ok (b', c2) => (putBoard s name b', c2, none)
    | .error _ => (putBoard s name b, c1, some "cannot add client to board")

/-- `Client::handle_board_join` (`src/client.rs` lines 105–117): look
the board up and call `add_client` — without ever assigning the
connection's `board_context`. -/
def serverJoin (s : ServerReg) (c : SClient) (name : List Nat) :
    ServerReg × SClient × Option String :=
  match findBoard s name with
  | some b =>
    match add_client b c with
    | .ok (b', c2) => (putBoard s name b', c2, none)
    | .error _ => (putBoard s name b, c, some "cannot add client to board")
  | none => (s, c, some "board not found")

/-- `c'` is the same connection as `c`, observed later: the channel
identity, send behaviour, user and board context are unchanged and the
delivery log has only grown at the end. -/
def Descends (c c' : SClient) : Prop :=
  c'.uid = c.uid ∧ c'.sendOk = c.sendOk ∧ c'.board_context = c.board_context ∧
    c'.authenticated_user = c.authenticated_user ∧
    ∃ t, c'.received = c.received ++ t

/-! ## Byte recomposition -/

theorem or_small (k y x : Nat) (hx : x < 2 ^ k) : (2 ^ k * y) ||| x = 2 ^ k * y + x :=
  (Nat.mul_add_lt_is_or hx y).symm

theorem u16_recomb (a b : Nat) (ha : a < 256) : (b <<< 8) ||| a = b * 256 + a := by
  have h : b <<< 8 = 2 ^ 8 * b := by rw [Nat.shiftLeft_eq]; ring
  rw [h, or_small 8 b a (by norm_num; omega)]; ring

theorem wr16_val (v : Nat) (hv : v < 2 ^ 16) :
    (((v >>> 8) % 256) <<< 8) ||| (v % 256) = v := by
  rw [u16_recomb _ _ (Nat.mod_lt _ (by norm_num))]
  rw [Nat.shiftRight_eq_div_pow]
  norm_num
  omega

theorem u32_recomb (a b c d : Nat) (ha : a < 256) (hb : b < 256) (hc : c < 256) :
    (d <<< 24) ||| (c <<< 16) ||| (b <<< 8) ||| a =
      ((d * 256 + c) * 256 + b) * 256 + a := by
  have h1 : d <<< 24 ||| c <<< 16 = d <<< 24 + c <<< 16 := by
    have hdd : d <<< 24 = 2 ^ 24 * d := by rw [Nat.shiftLeft_eq]; ring
    have hcc : c <<< 16 < 2 ^ 24 := by rw [Nat.shiftLeft_eq]; norm_num; omega
    rw [hdd, or_small 24 d _ hcc]
  have h2 : (d <<< 24 + c <<< 16) ||| (b <<< 8) = d <<< 24 + c <<< 16 + b <<< 8 := by
    have hfac : d <<< 24 + c <<< 16 = 2 ^ 16 * (d * 256 + c) := by
      simp [Nat.shiftLeft_eq]; ring
    have hbb : b <<< 8 < 2 ^ 16 := by rw [Nat.shiftLeft_eq]; norm_num; omega
    rw [hfac, or_small 16 _ _ hbb, ← hfac]
  have h3 : (d <<< 24 + c <<< 16 + b <<< 8) ||| a =
      d <<< 24 + c <<< 16 + b <<< 8 + a := by
    have hfac : d <<< 24 + c <<< 16 + b <<< 8 = 2 ^ 8 * (d * 65536 + c * 256 + b) := by
      simp [Nat.shiftLeft_eq]; ring
    rw [hfac, or_small 8 _ _ (by omega), ← hfac]
  rw [h1, h2, h3]
  simp [Nat.shiftLeft_eq]; ring

theorem wr32_val (v : Nat) (hv : v < 2 ^ 32) :
    (((v >>> 24) % 256) <<< 24) ||| (((v >>> 16) % 256) <<< 16) |||
      (((v >>> 8) % 256) <<< 8) ||| (v % 256) = v := by
  rw [u32_recomb _ _ _ _ (Nat.mod_lt _ (by norm_num)) (Nat.mod_lt _ (by norm_num))
    (Nat.mod_lt _ (by norm_num))]
  simp only [Nat.shiftRight_eq_div_pow]
  norm_num
  omega

theorem u64_recomb (a b c d e f g h : Nat) (ha : a < 256) (hb : b < 256)
    (hc : c < 256) (hd : d < 256) (he : e < 256) (hf : f < 256) (hg : g < 256) :
    (h <<< 56) ||| (g <<< 48) ||| (f <<< 40) ||| (e <<< 32) |||
      (d <<< 24) ||| (c <<< 16) ||| (b <<< 8) ||| a =
      ((((((h * 256 + g) * 256 + f) * 256 + e) * 256 + d) * 256 + c) * 256 + b)
        * 256 + a := by
  have h1 : h <<< 56 ||| g <<< 48 = h <<< 56 + g <<< 48 := by
    have hh : h <<< 56 = 2 ^ 56 * h := by rw [Nat.shiftLeft_eq]; ring
    have hx : g <<< 48 < 2 ^ 56 := by rw [Nat.shiftLeft_eq]; norm_num; omega
    rw [hh, or_small 56 h _ hx]
  have h2 : (h <<< 56 + g <<< 48) ||| f <<< 40 = h <<< 56 + g <<< 48 + f <<< 40 := by
    have hfac : h <<< 56 + g <<< 48 = 2 ^ 48 * (h * 256 + g) := by
      simp [Nat.shiftLeft_eq]; ring
    have hx : f <<< 40 < 2 ^ 48 := by rw [Nat.shiftLeft_eq]; norm_num; omega
    rw [hfac, or_small 48 _ _ hx, ← hfac]
  have h3 : (h <<< 56 + g <<< 48 + f <<< 40) ||| e <<< 32 =
      h <<< 56 + g <<< 48 + f <<< 40 + e <<< 32 := by
    have hfac : h <<< 56 + g <<< 48 + f <<< 40 =
        2 ^ 40 * (h * 65536 + g * 256 + f) := by
      simp [Nat.shiftLeft_eq]; ring
    have hx : e <<< 32 < 2 ^ 40 := by rw [Nat.shiftLeft_eq]; norm_num; omega
    rw [hfac, or_small 40 _ _ hx, ← hfac]
  have h4 : (h <<< 56 + g <<< 48 + f <<< 40 + e <<< 32) ||| d <<< 24 =
      h <<< 56 + g <<< 48 + f <<< 40 + e <<< 32 + d <<< 24 := by
    have hfac : h <<< 56 + g <<< 48 + f <<< 40 + e <<< 32 =
        2 ^ 32 * (h * 16777216 + g * 65536 + f * 256 + e) := by
      simp [Nat.shiftLeft_eq]; ring
    have hx : d <<< 24 < 2 ^ 32 := by rw [Nat.shiftLeft_eq]; norm_num; omega
    rw [hfac, or_small 32 _ _ hx, ← hfac]
  have h5 : (h <<< 56 + g <<< 48 + f <<< 40 + e <<< 32 + d <<< 24) ||| c <<< 16 =
      h <<< 56 + g <<< 48 + f <<< 40 + e <<< 32 + d <<< 24 + c <<< 16 := by
    have hfac : h <<< 56 + g <<< 48 + f <<< 40 + e <<< 32 + d <<< 24 =
        2 ^ 24 * (h * 4294967296 + g * 16777216 + f * 65536 + e * 256 + d) := by
      simp [Nat.shiftLeft_eq]; ring
    have hx : c <<< 16 < 2 ^ 24 := by rw [Nat.shiftLeft_eq]; norm_num; omega
    rw [hfac, or_small 24 _ _ hx, ← hfac]
  have h6 : (h <<< 56 + g <<< 48 + f <<< 40 + e <<< 32 + d <<< 24 + c <<< 16) |||
      b <<< 8 =
      h <<< 56 + g <<< 48 + f <<< 40 + e <<< 32 + d <<< 24 + c <<< 16 + b <<< 8 := by
    have hfac : h <<< 56 + g <<< 48 + f <<< 40 + e <<< 32 + d <<< 24 + c <<< 16 =
        2 ^ 16 * (h * 1099511627776 + g * 4294967296 + f * 16777216 + e * 65536 +
          d * 256 + c) := by
      simp [Nat.shiftLeft_eq]; ring
    have hx : b <<< 8 < 2 ^ 16 := by rw [Nat.shiftLeft_eq]; norm_num; omega
    rw [hfac, or_small 16 _ _ hx, ← hfac]
  have h7 : (h <<< 56 + g <<< 48 + f <<< 40 + e <<< 32 + d <<< 24 + c <<< 16 +
      b <<< 8) ||| a =
      h <<< 56 + g <<< 48 + f <<< 40 + e <<< 32 + d <<< 24 + c <<< 16 + b <<< 8
        + a := by
    have hfac : h <<< 56 + g <<< 48 + f <<< 40 + e <<< 32 + d <<< 24 + c <<< 16 +
        b <<< 8 =
        2 ^ 8 * (h * 281474976710656 + g * 1099511627776 + f * 4294967296 +
          e * 16777216 + d * 65536 + c * 256 + b) := by
      simp [Nat.shiftLeft_eq]; ring
    rw [hfac, or_small 8 _ _ (by omega), ← hfac]
  rw [h1, h2, h3, h4, h5, h6, h7]
  simp [Nat.shiftLeft_eq]; ring

theorem wr64_val (v : Nat) (hv : v < 2 ^ 64) :
    (((v >>> 56) % 256) <<< 56) ||| (((v >>> 48) % 256) <<< 48) |||
      (((v >>> 40) % 256) <<< 40) ||| (((v >>> 32) % 256) <<< 32) |||
      (((v >>> 24) % 256) <<< 24) ||| (((v >>> 16) % 256) <<< 16) |||
      (((v >>> 8) % 256) <<< 8) ||| (v % 256) = v := by
  rw [u64_recomb _ _ _ _ _ _ _ _ (Nat.mod_lt _ (by norm_num))
    (Nat.mod_lt _ (by norm_num)) (Nat.mod_lt _ (by norm_num))
    (Nat.mod_lt _ (by norm_num)) (Nat.mod_lt _ (by norm_num))
    (Nat.mod_lt _ (by norm_num)) (Nat.mod_lt _ (by norm_num))]
  simp only [Nat.shiftRight_eq_div_pow]
  norm_num
  omega

/-! ## Codec round-trip building blocks -/

theorem rd8_cons (a : Nat) (r : List Nat) : rdU8 (a :: r) = .ok (a, r) := rfl

theorem rd16_wr (v : Nat) (r : List Nat) (hv : v < 2 ^ 16) :
    rdU16 (wrU16 v ++ r) = .ok (v, r) := by
  simp only [wrU16, List.cons_append, List.nil_append, rdU16, rd8_cons]
  rw [wr16_val v hv]

theorem rd32_wr (v : Nat) (r : List Nat) (hv : v < 2 ^ 32) :
    rdU32 (wrU32 v ++ r) = .ok (v, r) := by
  simp only [wrU32, List.cons_append, List.nil_append, rdU32, rd8_cons]
  rw [wr32_val v hv]

theorem rd64_wr (v : Nat) (r : List Nat) (hv : v < 2 ^ 64) :
    rdU64 (wrU64 v ++ r) = .ok (v, r) := by
  simp only [wrU64, List.cons_append, List.nil_append, rdU64, rd8_cons]
  rw [wr64_val v hv]

theorem rdStr_wr (s r : List Nat) (hu : utf8Valid s = true) (hl : s.length < 65536) :
    rdStr (wrU16 s.length ++ (s ++ r)) = .ok (s, r) := by
  have h16 : rdU16 (wrU16 s.length ++ (s ++ r)) = .ok (s.length, s ++ r) :=
    rd16_wr _ _ (by omega)
  simp only [rdStr, h16, rdBytes, List.length_append]
  rw [if_pos (by omega), List.take_left, List.drop_left]
  simp [hu]

theorem rdBytesF_wr (s r : List Nat) (hl : s.length < 65536) :
    rdBytesField (wrU16 s.length ++ (s ++ r)) = .ok (s, r) := by
  have h16 : rdU16 (wrU16 s.length ++ (s ++ r)) = .ok (s.length, s ++ r) :=
    rd16_wr _ _ (by omega)
  simp only [rdBytesField, h16, rdBytes, List.length_append]
  rw [if_pos (by omega), List.take_left, List.drop_left]

theorem rdU32s_wr : ∀ (pal r : List Nat), (∀ x ∈ pal, x < 2 ^ 32) →
    rdU32s pal.length ((pal.map wrU32).flatten ++ r) = .ok (pal, r)
  | [], r, _ => by simp [rdU32s]
  | x :: xs, r, hb => by
    have hx : x < 2 ^ 32 := hb x (by simp)
    have ih := rdU32s_wr xs r (fun y hy => hb y (by simp [hy]))
    simp only [List.map_cons, List.flatten_cons, List.length_cons, List.append_assoc,
      rdU32s, rd32_wr x _ hx, ih]

theorem wrStr_ok {s u : List Nat} (h : wrStr s = .ok u) :
    s.length < 65536 ∧ u = wrU16 s.length ++ s := by
  unfold wrStr at h
  split at h
  · exact absurd h (by simp)
  next hlen => exact ⟨by omega, by simp only [Except.ok.injEq] at h; exact h.symm⟩

theorem wrBytes_ok {s u : List Nat} (h : wrBytes s = .ok u) :
    s.length < 65536 ∧ u = wrU16 s.length ++ s := by
  unfold wrBytes at h
  split at h
  · exact absurd h (by simp)
  next hlen => exact ⟨by omega, by simp only [Except.ok.injEq] at h; exact h.symm⟩

/-- Round-trip workhorse: a successful encode of a well-typed message
decodes back to the message, leaving any trailing bytes unread. -/
theorem encode_decode_aux (m : Message) (bs r : List Nat)
    (hwt : wellTypedB m = true) (he : encodeMessage m = .ok bs) :
    decodeMessage (bs ++ r) = .ok (m, r) := by
  cases m with
  | auth t =>
    simp only [wellTypedB] at hwt
    rcases hws : wrStr t with e | u
    · simp only [encodeMessage, hws] at he
      exact Except.noConfusion he
    · simp only [encodeMessage, hws, Except.ok.injEq] at he
      obtain ⟨hlen, rfl⟩ := wrStr_ok hws
      subst he
      simp only [List.cons_append, List.append_assoc]
      simp only [decodeMessage, rd8_cons, rdStr_wr, hwt, hlen]
  | join n =>
    simp only [wellTypedB] at hwt
    rcases hws : wrStr n with e | u
    · simp only [encodeMessage, hws] at he
      exact Except.noConfusion he
    · simp only [encodeMessage, hws, Except.ok.injEq] at he
      obtain ⟨hlen, rfl⟩ := wrStr_ok hws
      subst he
      simp only [List.cons_append, List.append_assoc]
      simp only [decodeMessage, rd8_cons, rdStr_wr, hwt, hlen]
  | create tid n =>
    simp only [wellTypedB, Bool.and_eq_true, decide_eq_true_eq] at hwt
    obtain ⟨htid, hn⟩ := hwt
    rcases hws : wrStr n with e | u
    · simp only [encodeMessage, hws] at he
      exact Except.noConfusion he
    · simp only [encodeMessage, hws, Except.ok.injEq] at he
      obtain ⟨hlen, rfl⟩ := wrStr_ok hws
      subst he
      simp only [List.cons_append, List.append_assoc]
      simp only [decodeMessage, rd8_cons, rd64_wr, rdStr_wr, htid, hn, hlen]
  | boardConfiguration pal bg fl hs =>
    simp only [wellTypedB, Bool.and_eq_true, decide_eq_true_eq, List.all_eq_true] at hwt
    obtain ⟨⟨⟨⟨hpal, hall⟩, hbg⟩, hfl⟩, hhs⟩ := hwt
    simp only [encodeMessage, Except.ok.injEq] at he
    subst he
    simp only [wrU8, List.cons_append, List.nil_append, List.append_assoc,
      List.singleton_append]
    simp only [decodeMessage, rd8_cons]
    rw [show (8 : Nat) = pal.length from hpal.symm,
      rdU32s_wr pal _ (fun x hx => hall x hx)]
    simp only [rd8_cons, rd16_wr, hhs]
  | step sid =>
    simp only [wellTypedB, decide_eq_true_eq] at hwt
    simp only [encodeMessage, Except.ok.injEq] at he
    subst he
    simp only [List.cons_append, List.append_assoc]
    simp only [decodeMessage, rd8_cons, rd32_wr, hwt]
  | draw pos col fl =>
    simp only [wellTypedB, Bool.and_eq_true, decide_eq_true_eq] at hwt
    obtain ⟨⟨hpos, hcol⟩, hfl⟩ := hwt
    simp only [encodeMessage, Except.ok.injEq] at he
    subst he
    simp only [wrU8, List.cons_append, List.nil_append, List.append_assoc,
      List.singleton_append]
    simp only [decodeMessage, rd8_cons, rd32_wr, hpos]
  | cursorMove pos uid =>
    simp only [wellTypedB, Bool.and_eq_true, decide_eq_true_eq] at hwt
    obtain ⟨hpos, huid⟩ := hwt
    simp only [encodeMessage, Except.ok.injEq] at he
    subst he
    simp only [wrU8, List.cons_append, List.nil_append, List.append_assoc,
      List.singleton_append]
    simp only [decodeMessage, rd8_cons, rd32_wr, hpos]
  | fill s t col =>
    simp only [wellTypedB, Bool.and_eq_true, decide_eq_true_eq] at hwt
    obtain ⟨⟨hs, ht⟩, hcol⟩ := hwt
    simp only [encodeMessage, Except.ok.injEq] at he
    subst he
    simp only [wrU8, List.cons_append, List.nil_append, List.append_assoc,
      List.singleton_append]
    simp only [decodeMessage, rd8_cons, rd32_wr, hs, ht]
  | image s t url =>
    simp only [wellTypedB, Bool.and_eq_true, decide_eq_true_eq] at hwt
    obtain ⟨⟨hs, ht⟩, hurl⟩ := hwt
    rcases hws : wrStr url with e | u
    · simp only [encodeMessage, hws] at he
      exact Except.noConfusion he
    · simp only [encodeMessage, hws, Except.ok.injEq] at he
      obtain ⟨hlen, rfl⟩ := wrStr_ok hws
      subst he
      simp only [List.cons_append, List.append_assoc]
      simp only [decodeMessage, rd8_cons, rd32_wr, rdStr_wr, hs, ht, hurl, hlen]
  | text cen tx tc =>
    simp only [wellTypedB, Bool.and_eq_true, decide_eq_true_eq] at hwt
    obtain ⟨⟨hcen, htx⟩, htc⟩ := hwt
    rcases hws : wrStr tx with e | u
    · simp only [encodeMessage, hws] at he
      exact Except.noConfusion he
    · simp only [encodeMessage, hws, Except.ok.injEq] at he
      obtain ⟨hlen, rfl⟩ := wrStr_ok hws
      subst he
      simp only [wrU8, List.cons_append, List.nil_append, List.append_assoc,
        List.singleton_append]
      simp only [decodeMessage, rd8_cons, rd32_wr, rdStr_wr, hcen, htx, hlen]
  | undo sid =>
    simp only [wellTypedB, decide_eq_true_eq] at hwt
    simp only [encodeMessage, Except.ok.injEq] at he
    subst he
    simp only [List.cons_append, List.append_assoc]
    simp only [decodeMessage, rd8_cons, rd32_wr, hwt]
  | ping ts =>
    simp only [wellTypedB, decide_eq_true_eq] at hwt
    simp only [encodeMessage, Except.ok.injEq] at he
    subst he
    simp only [List.cons_append, List.append_assoc]
    simp only [decodeMessage, rd8_cons, rd64_wr, hwt]
  | userJoin uid un =>
    simp only [wellTypedB, Bool.and_eq_true, decide_eq_true_eq] at hwt
    obtain ⟨huid, hun⟩ := hwt
    rcases hws : wrStr un with e | u
    · simp only [encodeMessage, hws] at he
      exact Except.noConfusion he
    · simp only [encodeMessage, hws, Except.ok.injEq] at he
      obtain ⟨hlen, rfl⟩ := wrStr_ok hws
      subst he
      simp only [wrU8, List.cons_append, List.nil_append, List.append_assoc,
        List.singleton_append]
      simp only [decodeMessage, rd8_cons, rdStr_wr, hun, hlen]
  | userLeave uid =>
    simp only [encodeMessage, Except.ok.injEq] at he
    subst he
    simp only [wrU8, List.cons_append, List.nil_append, List.singleton_append]
    simp only [decodeMessage, rd8_cons]
  | serverMessage msg =>
    simp only [wellTypedB] at hwt
    rcases hws : wrStr msg with e | u
    · simp only [encodeMessage, hws] at he
      exact Except.noConfusion he
    · simp only [encodeMessage, hws, Except.ok.injEq] at he
      obtain ⟨hlen, rfl⟩ := wrStr_ok hws
      subst he
      simp only [List.cons_append, List.append_assoc]
      simp only [decodeMessage, rd8_cons, rdStr_wr, hwt, hlen]
  | history d =>
    rcases hws : wrBytes d with e | u
    · simp only [encodeMessage, hws] at he
      exact Except.noConfusion he
    · simp only [encodeMessage, hws, Except.ok.injEq] at he
      obtain ⟨hlen, rfl⟩ := wrBytes_ok hws
      subst he
      simp only [List.cons_append, List.append_assoc]
      simp only [decodeMessage, rd8_cons, rdBytesF_wr, hlen]

theorem encode_ok_of_lenOk (m : Message) (hlen : msgLenOk m = true) :
    ∃ bs, encodeMessage m = .ok bs := by
  cases m <;>
    simp only [msgLenOk, decide_eq_true_eq] at hlen <;>
    simp only [encodeMessage, wrStr, wrBytes] <;>
    first
    | exact ⟨_, rfl⟩
    | · rw [if_neg (by omega)]
        exact ⟨_, rfl⟩

/-- C1.  Codec round-trip: for every `Message` whose fields are
well-typed (integers in range, strings valid UTF-8, palette of 8 u32s)
and whose string/byte fields are at most 65535 bytes long, encoding
succeeds and decoding the encoded bytes returns the original message,
consuming them exactly. -/
theorem c1_codec_roundtrip (m : Message) (hwt : wellTypedB m = true)
    (hlen : msgLenOk m = true) :
    ∃ bs, encodeMessage m = .ok bs ∧ decodeMessage bs = .ok (m, []) := by
  obtain ⟨bs, hbs⟩ := encode_ok_of_lenOk m hlen
  refine ⟨bs, hbs, ?_⟩
  have h := encode_decode_aux m bs [] hwt hbs
  rwa [List.append_nil] at h

theorem c1_codec_roundtrip_witness :
    wellTypedB (.create 7 [116]) = true ∧ msgLenOk (.create 7 [116]) = true ∧
      ∃ bs, encodeMessage (.create 7 [116]) = .ok bs ∧
        decodeMessage bs = .ok (.create 7 [116], []) :=
  ⟨by decide, by decide, c1_codec_roundtrip (.create 7 [116]) (by decide) (by decide)⟩

/-- C2.  The claim says every truncated frame makes `decode` fail with a
`Decode` error value.  The code instead panics: `read_u8` evaluates
`self.input[self.pos]` and `read_bytes` slices `input[pos..pos+len]`
without bounds checks, so the byte string `[0]` (an `Auth` frame
truncated right after its tag) and `[0, 5, 0, 65]` (a string length
prefix of 5 with only 1 byte remaining) crash instead of returning an
error; only the unknown-variant and invalid-UTF-8 cases produce the
error value (variant byte 16 shown here). -/
theorem c2_truncated_input_crashes :
    decodeMessage [0] = .error .crash ∧
      decodeMessage [0, 5, 0, 65] = .error .crash ∧
      decodeMessage [16] = .error .err ∧
      decodeMessage [] = .error .crash :=
  ⟨rfl, rfl, rfl, rfl⟩

/-- C9.  Decode ignores trailing bytes: appending any suffix to a
successfully encoded well-typed message leaves decoding unaffected — the
deserializer never checks that the input was fully consumed. -/
theorem c9_decode_ignores_trailing (m : Message) (bs r : List Nat)
    (hwt : wellTypedB m = true) (he : encodeMessage m = .ok bs) :
    decodeMessage (bs ++ r) = .ok (m, r) :=
  encode_decode_aux m bs r hwt he

theorem c9_decode_ignores_trailing_witness :
    wellTypedB (.userLeave 5) = true ∧ encodeMessage (.userLeave 5) = .ok [13, 5] ∧
      decodeMessage ([13, 5] ++ [99, 42]) = .ok (.userLeave 5, [99, 42]) :=
  ⟨by decide, rfl, c9_decode_ignores_trailing (.userLeave 5) [13, 5] [99, 42]
    (by decide) rfl⟩

/-- C3.  State-machine admissibility: for every connection state, every
decoded message and every board-existence oracle, (a) the dispatch
translated from `client.rs` produces exactly the effect or close reason
of the §4.2 table for the connection's phase, and (b) the phase changes
only for `Auth` while Unauthenticated and `Join`/`Create` while
Authenticated. -/
theorem c3_admissibility (oracle : List Nat → Option User) (c : SClient)
    (m : Message) (boardExists : List Nat → Bool) :
    (handleMsgWith oracle c m boardExists).2 =
      specEffect oracle c.phase m boardExists ∧
    ((handleMsgWith oracle c m boardExists).1.phase ≠ c.phase →
      phaseException c.phase m = true) := by
  constructor
  · rcases hu : c.authenticated_user with _ | user
    · cases m <;>
        simp only [handleMsgWith, ensure_authWith, specEffect, SClient.phase, hu,
          Option.isNone_none, if_true] <;>
        first
        | rfl
        | (rcases oracle _ with _ | u <;> rfl)
    · rcases hb : c.board_context with _ | bc
      · cases m <;>
          simp only [handleMsgWith, ensure_in_board, specEffect, SClient.phase,
            hu, hb, Option.isNone_none, Option.isNone_some] <;>
          first
          | rfl
          | (rcases boardExists _ with _ | _ <;> simp)
      · cases m <;>
          simp only [handleMsgWith, handle_in_board_msg, specEffect,
            SClient.phase, hu, hb, Option.isNone_none, Option.isNone_some] <;>
          rfl
  · intro hch
    rcases hu : c.authenticated_user with _ | user
    · cases m <;>
        first
        | (simp [SClient.phase, hu, phaseException]; done)
        | exact absurd (by
            simp [handleMsgWith, ensure_authWith, SClient.phase, hu]) hch
    · rcases hb : c.board_context with _ | bc
      · cases m <;>
          first
          | (simp [SClient.phase, hu, hb, phaseException]; done)
          | exact absurd (by
              simp [handleMsgWith, ensure_in_board, SClient.phase, hu, hb]) hch
      · cases m <;>
          exact absurd (by
            simp [handleMsgWith, handle_in_board_msg, SClient.phase, hu, hb]) hch

theorem c3_admissibility_witness :
    (handleMsgWith auth ⟨0, none, none, fun _ => true, []⟩ (.auth [116])
        (fun _ => false)).2 =
      specEffect auth (SClient.phase ⟨0, none, none, fun _ => true, []⟩)
        (.auth [116]) (fun _ => false) ∧
      phaseException (SClient.phase ⟨0, none, none, fun _ => true, []⟩)
        (.auth [116]) = true :=
  ⟨(c3_admissibility auth ⟨0, none, none, fun _ => true, []⟩ (.auth [116])
      (fun _ => false)).1,
   (c3_admissibility auth ⟨0, none, none, fun _ => true, []⟩ (.auth [116])
      (fun _ => false)).2 (by decide)⟩

/-- C10.  The auth oracle never rejects: `auth::auth` returns
`Some(User)` with the token as username for every token, so the
`"invalid auth"` close branch of `ensure_auth` is unreachable and every
unauthenticated connection that sends an `Auth` frame becomes
authenticated with that user. -/
theorem c10_auth_never_rejects (t : List Nat) (c : SClient)
    (boardExists : List Nat → Bool) (hu : c.authenticated_user = none) :
    auth t = some ⟨t⟩ ∧
      handleMsg c (.auth t) boardExists =
        ({c with authenticated_user := some ⟨t⟩}, .ok) := by
  refine ⟨rfl, ?_⟩
  simp [handleMsg, handleMsgWith, ensure_authWith, auth, hu]

theorem c10_auth_never_rejects_witness :
    (⟨0, none, none, fun _ => true, []⟩ : SClient).authenticated_user = none ∧
      (auth [116] = some ⟨[116]⟩ ∧
        handleMsg ⟨0, none, none, fun _ => true, []⟩ (.auth [116])
            (fun _ => false) =
          (⟨0, some ⟨[116]⟩, none, fun _ => true, []⟩, .ok)) :=
  ⟨rfl, c10_auth_never_rejects [116] ⟨0, none, none, fun _ => true, []⟩
    (fun _ => false) rfl⟩

/-- C4.  The claim says every successful join assigns the connection's
`BoardContext` and ids go 0, 1, 2, … in join order.  Evaluating the
code on a fresh registry: client A (uid 0) creates board "b" and does
get `board_client_id = 0`, but client B (uid 1) joins the same board
successfully (no close reason) and its `board_context` is still `None`
afterwards — `handle_board_join` never initialises `board_context`, so
`add_client`'s `board_context.as_mut().map(..)` is a no-op and B never
receives id 1.  (The roster copy of B would later make
`board_context.unwrap()` panic inside `broadcast`.) -/
theorem c4_join_never_assigns_context :
    ((serverCreate [] ⟨0, some ⟨[116]⟩, none, fun _ => true, []⟩ [98]).2.1.board_context
        = some ⟨[98], 0⟩) ∧
    ((serverCreate [] ⟨0, some ⟨[116]⟩, none, fun _ => true, []⟩ [98]).2.2 = none) ∧
    ((serverJoin (serverCreate [] ⟨0, some ⟨[116]⟩, none, fun _ => true, []⟩ [98]).1
        ⟨1, some ⟨[117]⟩, none, fun _ => true, []⟩ [98]).2.2 = none) ∧
    ((serverJoin (serverCreate [] ⟨0, some ⟨[116]⟩, none, fun _ => true, []⟩ [98]).1
        ⟨1, some ⟨[117]⟩, none, fun _ => true, []⟩ [98]).2.1.board_context = none) :=
  ⟨rfl, rfl, rfl, rfl⟩

/-- C7.  The claim says `add_to_history` keeps the buffer within
`history_size` and sets `HISTORY_TRIMMED` when trimming.  The code never
trims: appending 65536 bytes to a fresh board (whose `history_size` is
65535) leaves all 65536 bytes in the buffer, and `board_flags` still
returns only `HISTORY_ENABLED` (bit 0b10, `HISTORY_TRIMMED`, unset). -/
theorem c7_history_never_trimmed :
    (Board.new.add_to_history (List.replicate 65536 0)).history.length = 65536 ∧
    Board.new.history_size = 65535 ∧
    (Board.new.add_to_history (List.replicate 65536 0)).board_flags = 1 ∧
    (Board.new.add_to_history (List.replicate 65536 0)).board_flags &&& 2 = 0 := by
  refine ⟨?_, rfl, rfl, by decide⟩
  simp only [Board.add_to_history, Board.new, List.nil_append, List.length_replicate]

/-! ## Broadcast: roster pass lemmas -/

theorem encodeLeave_eq (uid : Nat) :
    encodeMessage (.userLeave uid) = .ok [13, uid] := rfl

theorem descends_refl (c : SClient) : Descends c c :=
  ⟨rfl, rfl, rfl, rfl, [], by simp⟩

theorem descends_trans {a b c : SClient} (h1 : Descends a b) (h2 : Descends b c) :
    Descends a c := by
  obtain ⟨u1, s1, b1, a1, t1, r1⟩ := h1
  obtain ⟨u2, s2, b2, a2, t2, r2⟩ := h2
  exact ⟨u2.trans u1, s2.trans s1, b2.trans b1, a2.trans a1, t1 ++ t2,
    by rw [r2, r1, List.append_assoc]⟩

theorem descends_send (c : SClient) (msg : List Nat) :
    Descends c {c with received := c.received ++ [msg]} :=
  ⟨rfl, rfl, rfl, rfl, [msg], rfl⟩

theorem passSend_no_fuel {msg : List Nat} :
    ∀ {cs : List SClient} {e : BErr}, passSend msg cs = .error e → e = .crash := by
  intro cs
  induction cs with
  | nil => intro e h; simp [passSend] at h
  | cons c rest ih =>
    intro e h
    simp only [passSend] at h
    split at h
    · rcases hp : passSend msg rest with e' | p
      · rw [hp] at h
        simp only [Except.error.injEq] at h
        exact h ▸ ih hp
      · rw [hp] at h
        exact absurd h (by simp)
    · rcases hb : c.board_context with _ | ctx
      · rw [hb] at h
        simp only [Except.error.injEq] at h
        exact h.symm
      · rw [hb] at h
        simp only [encodeLeave_eq] at h
        rcases hp : passSend msg rest with e' | p
        · rw [hp] at h
          simp only [Except.error.injEq] at h
          exact h ▸ ih hp
        · rw [hp] at h
          exact absurd h (by simp)

theorem passSend_length {msg : List Nat} :
    ∀ {cs s : List SClient} {errs : List (List Nat)},
      passSend msg cs = .ok (s, errs) → s.length + errs.length = cs.length := by
  intro cs
  induction cs with
  | nil => intro s errs h; simp only [passSend, Except.ok.injEq, Prod.mk.injEq] at h
           obtain ⟨h1, h2⟩ := h; subst h1; subst h2; rfl
  | cons c rest ih =>
    intro s errs h
    simp only [passSend] at h
    split at h
    · rcases hp : passSend msg rest with e' | ⟨s0, errs0⟩
      · rw [hp] at h; exact absurd h (by simp)
      · rw [hp] at h
        simp only [Except.ok.injEq, Prod.mk.injEq] at h
        obtain ⟨h1, h2⟩ := h
        subst h1; subst h2
        have := ih hp
        simp only [List.length_cons]
        omega
    · rcases hb : c.board_context with _ | ctx
      · rw [hb] at h; exact absurd h (by simp)
      · rw [hb] at h
        simp only [encodeLeave_eq] at h
        rcases hp : passSend msg rest with e' | ⟨s0, errs0⟩
        · rw [hp] at h; exact absurd h (by simp)
        · rw [hp] at h
          simp only [Except.ok.injEq, Prod.mk.injEq] at h
          obtain ⟨h1, h2⟩ := h
          subst h1; subst h2
          have := ih hp
          simp only [List.length_cons]
          omega

theorem passSend_surv {msg : List Nat} :
    ∀ {cs s : List SClient} {errs : List (List Nat)},
      passSend msg cs = .ok (s, errs) →
      ∀ c' ∈ s, ∃ c ∈ cs, c.sendOk msg = true ∧
        c' = {c with received := c.received ++ [msg]} := by
  intro cs
  induction cs with
  | nil =>
    intro s errs h c' hc'
    simp only [passSend, Except.ok.injEq, Prod.mk.injEq] at h
    obtain ⟨h1, _⟩ := h
    subst h1
    exact absurd hc' (by simp)
  | cons c rest ih =>
    intro s errs h c' hc'
    simp only [passSend] at h
    split at h
    next hsend =>
      rcases hp : passSend msg rest with e' | ⟨s0, errs0⟩
      · rw [hp] at h; exact absurd h (by simp)
      · rw [hp] at h
        simp only [Except.ok.injEq, Prod.mk.injEq] at h
        obtain ⟨h1, _⟩ := h
        subst h1
        rcases List.mem_cons.mp hc' with heq | hmem
        · exact ⟨c, by simp, hsend, heq⟩
        · obtain ⟨c0, hc0, hok, heq⟩ := ih hp c' hmem
          exact ⟨c0, by simp [hc0], hok, heq⟩
    · rcases hb : c.board_context with _ | ctx
      · rw [hb] at h; exact absurd h (by simp)
      · rw [hb] at h
        simp only [encodeLeave_eq] at h
        rcases hp : passSend msg rest with e' | ⟨s0, errs0⟩
        · rw [hp] at h; exact absurd h (by simp)
        · rw [hp] at h
          simp only [Except.ok.injEq, Prod.mk.injEq] at h
          obtain ⟨h1, _⟩ := h
          subst h1
          obtain ⟨c0, hc0, hok, heq⟩ := ih hp c' hc'
          exact ⟨c0, by simp [hc0], hok, heq⟩

theorem passSend_dropped {msg : List Nat} :
    ∀ {cs s : List SClient} {errs : List (List Nat)} {C : SClient}
      {ctx : BoardContext},
      passSend msg cs = .ok (s, errs) → C ∈ cs → C.sendOk msg = false →
      C.board_context = some ctx → [13, ctx.board_client_id] ∈ errs := by
  intro cs
  induction cs with
  | nil => intro s errs C ctx h hC _ _; exact absurd hC (by simp)
  | cons c rest ih =>
    intro s errs C ctx h hC hfail hctx
    simp only [passSend] at h
    split at h
    next hsend =>
      rcases hp : passSend msg rest with e' | ⟨s0, errs0⟩
      · rw [hp] at h; exact absurd h (by simp)
      · rw [hp] at h
        simp only [Except.ok.injEq, Prod.mk.injEq] at h
        obtain ⟨_, h2⟩ := h
        subst h2
        rcases List.mem_cons.mp hC with heq | hmem
        · subst heq
          rw [hfail] at hsend
          exact absurd hsend (by simp)
        · exact ih hp hmem hfail hctx
    next hsend =>
      rcases hb : c.board_context with _ | cctx
      · rw [hb] at h; exact absurd h (by simp)
      · rw [hb] at h
        simp only [encodeLeave_eq] at h
        rcases hp : passSend msg rest with e' | ⟨s0, errs0⟩
        · rw [hp] at h; exact absurd h (by simp)
        · rw [hp] at h
          simp only [Except.ok.injEq, Prod.mk.injEq] at h
          obtain ⟨_, h2⟩ := h
          subst h2
          rcases List.mem_cons.mp hC with heq | hmem
          · subst heq
            rw [hctx] at hb
            simp only [Option.some.injEq] at hb
            subst hb
            exact List.mem_cons_self _ _
          · exact List.mem_cons_of_mem _ (ih hp hmem hfail hctx)

/-! ## Broadcast: recursion lemmas -/

theorem except_pure_eq {ε α : Type} (a : α) : (pure a : Except ε α) = .ok a := rfl

theorem except_bind_ok {ε α β : Type} (a : α) (f : α → Except ε β) :
    (Except.ok a >>= f) = f a := rfl

theorem except_bind_error {ε α β : Type} (e : ε) (f : α → Except ε β) :
    ((Except.error e : Except ε α) >>= f) = .error e := rfl

theorem foldBroadcast_trace (f : Nat)
    (IH : ∀ (msg : List Nat) (b b' : Board), broadcastF f msg b = .ok b' →
      b'.clients.length ≤ b.clients.length ∧
      ∀ c' ∈ b'.clients, ∃ c ∈ b.clients,
        Descends c c' ∧ c.sendOk msg = true ∧ msg ∈ c'.received) :
    ∀ (es : List (List Nat)) (b b' : Board),
      es.foldlM (fun bb e => broadcastF f e bb) b = .ok b' →
      b'.clients.length ≤ b.clients.length ∧
      ∀ c' ∈ b'.clients, ∃ c ∈ b.clients, Descends c c' := by
  intro es
  induction es with
  | nil =>
    intro b b' h
    simp only [List.foldlM_nil, except_pure_eq, Except.ok.injEq] at h
    subst h
    exact ⟨le_refl _, fun c' hc' => ⟨c', hc', descends_refl c'⟩⟩
  | cons e es ihes =>
    intro b b' h
    simp only [List.foldlM_cons] at h
    rcases hb2 : broadcastF f e b with x | b2
    · rw [hb2, except_bind_error] at h
      exact absurd h (by simp)
    · rw [hb2, except_bind_ok] at h
      obtain ⟨hlen2, htr2⟩ := IH e b b2 hb2
      obtain ⟨hlen3, htr3⟩ := ihes b2 b' h
      refine ⟨le_trans hlen3 hlen2, fun c' hc' => ?_⟩
      obtain ⟨cm, hcm, hd2⟩ := htr3 c' hc'
      obtain ⟨c0, hc0, hd1, _, _⟩ := htr2 cm hcm
      exact ⟨c0, hc0, descends_trans hd1 hd2⟩

theorem broadcast_trace :
    ∀ (f : Nat) (msg : List Nat) (b b' : Board), broadcastF f msg b = .ok b' →
      b'.clients.length ≤ b.clients.length ∧
      ∀ c' ∈ b'.clients, ∃ c ∈ b.clients,
        Descends c c' ∧ c.sendOk msg = true ∧ msg ∈ c'.received := by
  intro f
  induction f with
  | zero => intro msg b b' h; exact absurd h (by simp [broadcastF])
  | succ n ih =>
    intro msg b b' h
    simp only [broadcastF] at h
    rcases hp : passSend msg b.clients with e | ⟨s, errs⟩
    · rw [hp] at h; exact absurd h (by simp)
    · rw [hp] at h
      obtain ⟨hlen, htr⟩ := foldBroadcast_trace n ih errs {b with clients := s} b' h
      have hslen : s.length + errs.length = b.clients.length := passSend_length hp
      refine ⟨by simp at hlen; omega, fun c' hc' => ?_⟩
      obtain ⟨cm, hcm, hd2⟩ := htr c' hc'
      simp only at hcm
      obtain ⟨c0, hc0, hsend, heq⟩ := passSend_surv hp cm hcm
      subst heq
      have hd1 := descends_send c0 msg
      refine ⟨c0, hc0, descends_trans hd1 hd2, hsend, ?_⟩
      obtain ⟨_, _, _, _, t, hrec⟩ := hd2
      rw [hrec]
      simp

theorem foldBroadcast_fuel (f : Nat)
    (IHf : ∀ (msg : List Nat) (b : Board), b.clients.length < f →
      broadcastF f msg b ≠ .error .fuel) :
    ∀ (es : List (List Nat)) (b : Board), b.clients.length < f →
      es.foldlM (fun bb e => broadcastF f e bb) b ≠ .error .fuel := by
  intro es
  induction es with
  | nil =>
    intro b hlt
    simp [List.foldlM_nil, except_pure_eq]
  | cons e es ihes =>
    intro b hlt
    simp only [List.foldlM_cons]
    rcases hb2 : broadcastF f e b with x | b2
    · rw [except_bind_error]
      intro hcontra
      simp only [Except.error.injEq] at hcontra
      subst hcontra
      exact IHf e b hlt hb2
    · rw [except_bind_ok]
      have hlen := (broadcast_trace f e b b2 hb2).1
      exact ihes b2 (by omega)

theorem broadcast_fuel :
    ∀ (f : Nat) (msg : List Nat) (b : Board), b.clients.length < f →
      broadcastF f msg b ≠ .error .fuel := by
  intro f
  induction f with
  | zero => intro msg b hlt; omega
  | succ n ih =>
    intro msg b hlt
    simp only [broadcastF]
    rcases hp : passSend msg b.clients with e | ⟨s, errs⟩
    · have := passSend_no_fuel hp
      subst this
      simp
    · have hslen : s.length + errs.length = b.clients.length := passSend_length hp
      rcases errs with _ | ⟨e0, es0⟩
      · simp [List.foldlM_nil, except_pure_eq]
      · refine foldBroadcast_fuel n ih (e0 :: es0) {b with clients := s} ?_
        simp only [List.length_cons] at hslen ⊢
        omega

theorem foldBroadcast_deliver (f : Nat) :
    ∀ (es : List (List Nat)) (b b' : Board) (lv : List Nat), lv ∈ es →
      es.foldlM (fun bb e => broadcastF f e bb) b = .ok b' →
      ∀ c' ∈ b'.clients, lv ∈ c'.received := by
  intro es
  induction es with
  | nil => intro b b' lv hlv _; exact absurd hlv (by simp)
  | cons e es ihes =>
    intro b b' lv hlv h
    simp only [List.foldlM_cons] at h
    rcases hb2 : broadcastF f e b with x | b2
    · rw [hb2, except_bind_error] at h
      exact absurd h (by simp)
    · rw [hb2, except_bind_ok] at h
      rcases List.mem_cons.mp hlv with heq | hmem
      · subst heq
        intro c' hc'
        obtain ⟨cm, hcm, hd⟩ := (foldBroadcast_trace f
          (fun m bb bb' hh => broadcast_trace f m bb bb' hh) es b2 b' h).2 c' hc'
        obtain ⟨cq, hcq, hdq, hsq, hin⟩ := (broadcast_trace f lv b b2 hb2).2 cm hcm
        obtain ⟨_, _, _, _, t, hrec⟩ := hd
        rw [hrec]
        exact List.mem_append_left t hin
      · exact ihes b2 b' lv hmem h

/-- C8.  Broadcast termination: for every roster and every pattern of
per-client send outcomes, the recursive `Board::broadcast` terminates —
a recursion budget of roster size + 1 is never exhausted (each recursive
call runs over a strictly smaller roster), so the call either completes
with a new roster or stops at a modelled panic, never by running out of
budget. -/
theorem c8_broadcast_terminates (b : Board) (msg : List Nat) :
    (∃ b', b.broadcast msg = .ok b') ∨ b.broadcast msg = .error .crash := by
  rcases h : b.broadcast msg with e | b'
  · rcases e with _ | _
    · exact absurd h (broadcast_fuel (b.clients.length + 1) msg b (by omega))
    · exact Or.inr rfl
  · exact Or.inl ⟨b', rfl⟩

/-- C5.  Dead-peer eviction: whenever a broadcast completes without
panicking and the send to roster member `C` failed, no connection with
`C`'s channel remains in the roster afterwards, and the synthesized
`UserLeave` frame carrying `C`'s `board_client_id` has been delivered to
every surviving roster member. -/
theorem c5_dead_peer_eviction (b : Board) (msg : List Nat) (C : SClient)
    (ctx : BoardContext) (b' : Board)
    (hC : C ∈ b.clients) (hfail : C.sendOk msg = false)
    (hctx : C.board_context = some ctx)
    (hnd : (b.clients.map SClient.uid).Nodup)
    (hok : b.broadcast msg = .ok b') :
    encodeMessage (.userLeave ctx.board_client_id) = .ok [13, ctx.board_client_id] ∧
    ∀ c' ∈ b'.clients, c'.uid ≠ C.uid ∧ [13, ctx.board_client_id] ∈ c'.received := by
  refine ⟨encodeLeave_eq _, ?_⟩
  unfold Board.broadcast at hok
  simp only [broadcastF] at hok
  rcases hp : passSend msg b.clients with e | ⟨s, errs⟩
  · rw [hp] at hok; exact absurd hok (by simp)
  · rw [hp] at hok
    have hleave : [13, ctx.board_client_id] ∈ errs :=
      passSend_dropped hp hC hfail hctx
    intro c' hc'
    constructor
    · obtain ⟨cm, hcm, hd⟩ := (foldBroadcast_trace b.clients.length
        (fun m bb bb' hh => broadcast_trace _ m bb bb' hh) errs
        {b with clients := s} b' hok).2 c' hc'
      simp only at hcm
      obtain ⟨c0, hc0, hsend, heq⟩ := passSend_surv hp cm hcm
      obtain ⟨hu2, _, _, _, _⟩ := hd
      intro huid
      have huid0 : c0.uid = C.uid := by
        rw [← huid, hu2, heq]
      have : c0 = C := List.inj_on_of_nodup_map hnd hc0 hC huid0
      rw [this] at hsend
      rw [hfail] at hsend
      exact absurd hsend (by simp)
    · exact foldBroadcast_deliver b.clients.length errs {b with clients := s} b'
        [13, ctx.board_client_id] hleave hok c' hc'

theorem c5_dead_peer_eviction_witness :
    (⟨0, none, some ⟨[], 5⟩, fun _ => false, []⟩ : SClient).sendOk [9, 9] = false ∧
    (encodeMessage (.userLeave 5) = .ok [13, 5] ∧
      ∀ c' ∈ (Board.mk [⟨1, none, some ⟨[], 7⟩, fun _ => true, [[9, 9], [13, 5]]⟩]
          0 [] 65535 [] 0).clients,
        c'.uid ≠ (⟨0, none, some ⟨[], 5⟩, fun _ => false, []⟩ : SClient).uid ∧
          [13, 5] ∈ c'.received) :=
  ⟨rfl,
   c5_dead_peer_eviction
     (Board.mk [⟨0, none, some ⟨[], 5⟩, fun _ => false, []⟩,
       ⟨1, none, some ⟨[], 7⟩, fun _ => true, []⟩] 0 [] 65535 [] 0)
     [9, 9]
     ⟨0, none, some ⟨[], 5⟩, fun _ => false, []⟩
     ⟨[], 5⟩
     (Board.mk [⟨1, none, some ⟨[], 7⟩, fun _ => true, [[9, 9], [13, 5]]⟩]
       0 [] 65535 [] 0)
     (List.mem_cons_self _ _) rfl rfl (by decide) rfl⟩

/-! ## History chunking and replay -/

theorem chunksGo_join : ∀ (f : Nat) (l : List Nat), l.length ≤ f →
    (chunksGo f l).flatten = l := by
  intro f
  induction f with
  | zero =>
    intro l hl
    have : l = [] := List.eq_nil_of_length_eq_zero (by omega)
    subst this
    rfl
  | succ n ih =>
    intro l hl
    rcases l with _ | ⟨a, t⟩
    · rfl
    · simp only [chunksGo, List.flatten_cons]
      rw [ih _ (by simp only [List.length_drop]; simp at hl ⊢; omega)]
      exact List.take_append_drop _ _

theorem chunksGo_le : ∀ (f : Nat) (l : List Nat) (ch : List Nat),
    ch ∈ chunksGo f l → ch.length ≤ 65535 := by
  intro f
  induction f with
  | zero => intro l ch h; exact absurd h (by simp [chunksGo])
  | succ n ih =>
    intro l ch h
    rcases l with _ | ⟨a, t⟩
    · exact absurd h (by simp [chunksGo])
    · simp only [chunksGo] at h
      rcases List.mem_cons.mp h with heq | hmem
      · subst heq
        simp [List.length_take]
      · exact ih _ ch hmem

theorem chunks65535_join (l : List Nat) : (chunks65535 l).flatten = l :=
  chunksGo_join l.length l (le_refl _)

theorem chunks65535_le (l ch : List Nat) (h : ch ∈ chunks65535 l) :
    ch.length ≤ 65535 :=
  chunksGo_le l.length l ch h

theorem foldBroadcast_fields (f : Nat)
    (IH : ∀ (msg : List Nat) (b b' : Board), broadcastF f msg b = .ok b' →
      b'.history = b.history ∧ b'.history_size = b.history_size ∧
      b'.palette = b.palette ∧ b'.background_color = b.background_color ∧
      b'.last_client_id = b.last_client_id) :
    ∀ (es : List (List Nat)) (b b' : Board),
      es.foldlM (fun bb e => broadcastF f e bb) b = .ok b' →
      b'.history = b.history ∧ b'.history_size = b.history_size ∧
      b'.palette = b.palette ∧ b'.background_color = b.background_color ∧
      b'.last_client_id = b.last_client_id := by
  intro es
  induction es with
  | nil =>
    intro b b' h
    simp only [List.foldlM_nil, except_pure_eq, Except.ok.injEq] at h
    subst h
    exact ⟨rfl, rfl, rfl, rfl, rfl⟩
  | cons e es ihes =>
    intro b b' h
    simp only [List.foldlM_cons] at h
    rcases hb2 : broadcastF f e b with x | b2
    · rw [hb2, except_bind_error] at h
      exact absurd h (by simp)
    · rw [hb2, except_bind_ok] at h
      obtain ⟨h1, h2, h3, h4, h5⟩ := IH e b b2 hb2
      obtain ⟨g1, g2, g3, g4, g5⟩ := ihes b2 b' h
      exact ⟨g1.trans h1, g2.trans h2, g3.trans h3, g4.trans h4, g5.trans h5⟩

theorem broadcast_fields :
    ∀ (f : Nat) (msg : List Nat) (b b' : Board), broadcastF f msg b = .ok b' →
      b'.history = b.history ∧ b'.history_size = b.history_size ∧
      b'.palette = b.palette ∧ b'.background_color = b.background_color ∧
      b'.last_client_id = b.last_client_id := by
  intro f
  induction f with
  | zero => intro msg b b' h; exact absurd h (by simp [broadcastF])
  | succ n ih =>
    intro msg b b' h
    simp only [broadcastF] at h
    rcases hp : passSend msg b.clients with e | ⟨s, errs⟩
    · rw [hp] at h; exact absurd h (by simp)
    · rw [hp] at h
      exact foldBroadcast_fields n ih errs {b with clients := s} b' h

theorem sendHistory_ok :
    ∀ (chunks : List (List Nat)) (c c' : SClient),
      (∀ ch ∈ chunks, ch.length ≤ 65535) →
      sendHistory chunks c = .ok (some c') →
      c'.received = c.received ++ chunks.map (fun x => wrU16 x.length ++ x) ∧
      c'.uid = c.uid ∧ c'.board_context = c.board_context ∧
      c'.authenticated_user = c.authenticated_user := by
  intro chunks
  induction chunks with
  | nil =>
    intro c c' _ h
    simp only [sendHistory, Except.ok.injEq, Option.some.injEq] at h
    subst h
    simp
  | cons x xs ih =>
    intro c c' hle h
    have hx : x.length ≤ 65535 := hle x (by simp)
    have hframe : historyFrame x = .ok (wrU16 x.length ++ x) := by
      unfold historyFrame wrBytes
      rw [if_neg (by omega)]
    simp only [sendHistory, hframe] at h
    split at h
    next hsend =>
      obtain ⟨h1, h2, h3, h4⟩ := ih _ c' (fun ch hch => hle ch (by simp [hch])) h
      refine ⟨?_, h2, h3, h4⟩
      rw [h1]
      simp
    next hsend => exact absurd h (by simp)

/-- C6.  History replay burst: when `add_client` succeeds, the joiner's
channel received — in this order, after anything it had before and
before anything that follows — the `BoardConfiguration` frame, then one
`History` frame per 65535-byte chunk of the board's history; the chunks
concatenate back to exactly the board's history, in order. -/
theorem c6_history_replay (b : Board) (c : SClient) (b' : Board) (c' : SClient)
    (hok : add_client b c = .ok (b', c')) :
    c'.received = c.received ++ confBytes b' ::
      (chunks65535 b.history).map (fun x => wrU16 x.length ++ x) ∧
    b'.history = b.history ∧
    (chunks65535 b.history).flatten = b.history ∧
    (∀ ch ∈ chunks65535 b.history, ch.length ≤ 65535) := by
  unfold add_client at hok
  rcases hu : c.authenticated_user with _ | user
  · simp only [hu] at hok
    exact absurd hok (by simp)
  · simp only [hu] at hok
    rcases hj : encodeMessage (.userJoin b.last_client_id user.username)
      with ej | joinMsg
    · simp only [hj] at hok
      exact absurd hok (by simp)
    · simp only [hj] at hok
      rcases hbr : Board.broadcast
          {b with last_client_id := (b.last_client_id + 1) % 256} joinMsg
        with eb | b2
      · simp only [hbr] at hok
        exact absurd hok (by simp)
      · simp only [hbr] at hok
        have hist2pre := (broadcast_fields
          ({b with last_client_id := (b.last_client_id + 1) % 256}.clients.length + 1)
          joinMsg {b with last_client_id := (b.last_client_id + 1) % 256} b2
          (by unfold Board.broadcast at hbr; exact hbr)).1
        have hist2 : b2.history = b.history := hist2pre
        split at hok
        next hsend =>
          split at hok
          next heq => exact absurd hok (by simp)
          next heq => exact absurd hok (by simp)
          next c2 heq =>
            simp only [Except.ok.injEq, Prod.mk.injEq] at hok
            obtain ⟨hb', hc'⟩ := hok
            have hle : ∀ ch ∈ chunks65535 b2.history, ch.length ≤ 65535 :=
              fun ch hch => chunks65535_le _ _ hch
            obtain ⟨h1, _, _, _⟩ := sendHistory_ok _ _ c2 hle heq
            subst hb'
            subst hc'
            refine ⟨?_, by simpa using hist2, chunks65535_join _, ?_⟩
            · rw [h1]
              simp only [hist2]
              simp
            · simpa [hist2] using hle
        next hsend => exact absurd hok (by simp)

theorem c6_history_replay_witness :
    ∃ p : Board × SClient,
      add_client (Board.mk [] 0 [1, 2] 65535 [0, 0, 0, 0, 0, 0, 0, 0] 0)
          ⟨0, some ⟨[116]⟩, some ⟨[98], 0⟩, fun _ => true, []⟩ = .ok p ∧
      p.2.received = ([] : List (List Nat)) ++ confBytes p.1 ::
        (chunks65535 [1, 2]).map (fun x => wrU16 x.length ++ x) :=
  ⟨(Board.mk [⟨0, some ⟨[116]⟩, some ⟨[98], 0⟩, fun _ => true, []⟩] 1 [1, 2]
      65535 [0, 0, 0, 0, 0, 0, 0, 0] 0,
    ⟨0, some ⟨[116]⟩, some ⟨[98], 0⟩, fun _ => true,
      [List.replicate 32 0 ++ [0, 1, 255, 255], [2, 0, 1, 2]]⟩),
   by rfl,
   (c6_history_replay (Board.mk [] 0 [1, 2] 65535 [0, 0, 0, 0, 0, 0, 0, 0] 0)
     ⟨0, some ⟨[116]⟩, some ⟨[98], 0⟩, fun _ => true, []⟩
     (Board.mk [⟨0, some ⟨[116]⟩, some ⟨[98], 0⟩, fun _ => true, []⟩] 1 [1, 2]
       65535 [0, 0, 0, 0, 0, 0, 0, 0] 0)
     ⟨0, some ⟨[116]⟩, some ⟨[98], 0⟩, fun _ => true,
       [List.replicate 32 0 ++ [0, 1, 255, 255], [2, 0, 1, 2]]⟩
     (by rfl)).1⟩
